import Mathlib

/-!
Verification of core algorithms of the flare-floss string triage tool.

The definitions below are shallow embeddings of the Python sources:
  * `src/floss/qs/main.py` (ranges, ASCII extraction, tag policy, suppression, PE layout)
  * `src/floss/language/rust/extract.py` (blob-mode extraction, wide-string repair, splitting)

Machine integers in the sources are Python arbitrary-precision ints; they are
modelled as `Nat` (or `Int` where subtraction can go negative in the source).
Byte buffers are `List Nat`; decoded text is `List Char` (Python `str` indexing
and `len` are per character, which these lists mirror).
-/

namespace FlossQs

/-- `Range` from `floss/qs/main.py`: half-open byte interval `[offset, offset+length)`. -/
structure Range where
  offset : Nat
  length : Nat
deriving DecidableEq, Repr

/-- The `end` property of `Range` (`end` is a reserved word in Lean). -/
def Range.stop (r : Range) : Nat := r.offset + r.length

/-- Point containment branch of `Range.__contains__`: `self.offset <= other < self.end`. -/
def Range.containsPt (r : Range) (p : Nat) : Bool :=
  decide (r.offset ≤ p) && decide (p < r.stop)

/-- Range containment branch of `Range.__contains__`:
`(other.offset in self) and (other.end in self)`. -/
def Range.containsRange (r other : Range) : Bool :=
  r.containsPt other.offset && r.containsPt other.stop

/-- `ExtractedString` from `floss/qs/main.py`.  The decoded text of an ASCII run is
byte-for-byte the matched bytes, so the text is kept as the byte list. -/
inductive QsEncoding where
  | ascii
  | unicode
deriving DecidableEq, Repr

structure ExtractedString where
  string : List Nat
  range : Range
  encoding : QsEncoding
deriving DecidableEq, Repr

/-- `check_is_reloc` from `floss/qs/main.py`: tag `#reloc` exactly when the string
range is contained (per `Range.__contains__`) in the relocation directory range. -/
def check_is_reloc (reloc : Option Range) (string : ExtractedString) : List String :=
  match reloc with
  | none => []
  | some r => if r.containsRange string.range then ["#reloc"] else []

/-- Membership in the `ASCII_BYTE` alphabet of `floss/qs/main.py`:
the printable ASCII bytes `0x20 .. 0x7e` plus tab (`0x09`). -/
def isAsciiByte (b : Nat) : Bool :=
  b == 9 || (decide (32 ≤ b) && decide (b ≤ 126))

/-- Maximal-run scanner implementing the semantics of
`re.finditer(b"([ASCII_BYTE]{n,})", buf)` used by `extract_ascii_strings`:
successive leftmost maximal runs of alphabet bytes, kept when at least `n` long.
`pos` is the absolute offset of the head of `buf`. -/
def asciiRuns (n : Nat) (pos : Nat) (buf : List Nat) : List (Nat × List Nat) :=
  match buf with
  | [] => []
  | b :: rest =>
    if isAsciiByte b then
      let run := b :: rest.takeWhile isAsciiByte
      let rem := rest.drop (rest.takeWhile isAsciiByte).length
      (if n ≤ run.length then [(pos, run)] else []) ++ asciiRuns n (pos + run.length) rem
    else
      asciiRuns n (pos + 1) rest
termination_by buf.length
decreasing_by
  · simp only [List.length_cons, List.length_drop]
    omega
  · simp only [List.length_cons]
    omega

/-- `extract_ascii_strings` from `floss/qs/main.py` (both the cached `ASCII_RE_6`
regex and the freshly compiled one denote the same pattern). -/
def extract_ascii_strings (buf : List Nat) (n : Nat) : List ExtractedString :=
  if buf.isEmpty then []
  else (asciiRuns n 0 buf).map (fun p => ⟨p.2, ⟨p.1, p.2.length⟩, .ascii⟩)

/-- `Tag` is a plain string; a tagged string carries a set of tags. -/
structure TaggedString where
  string : ExtractedString
  tags : Finset String
  structureLabel : String := ""
deriving DecidableEq

/-- `TagRules` is a dict from tag to action; modelled as an association list,
`tagRuleGet` is `tag_rules.get(tag)`. -/
def TagRules := List (String × String)

def tagRuleGet (tag_rules : TagRules) (tag : String) : Option String :=
  (tag_rules.find? (fun p => p.1 == tag)).map (fun p => p.2)

/-- `should_hide_string` from `floss/qs/main.py`:
`any(map(lambda tag: tag_rules.get(tag) == "hide", s.tags))`. -/
def should_hide_string (s : TaggedString) (tag_rules : TagRules) : Bool :=
  decide (∃ tag ∈ s.tags, tagRuleGet tag_rules tag = some "hide")

/-- The per-tag action used by `compute_string_style`: `tag_rules.get(tag, "mute")`,
i.e. a tag missing from the rules acts as mute. -/
def styleOfTag (tag_rules : TagRules) (tag : String) : String :=
  (tagRuleGet tag_rules tag).getD "mute"

/-- The three rich `Style` constants of `floss/qs/main.py`, as an enumeration. -/
inductive StyleKind where
  | muted
  | defaultStyle
  | highlighted
deriving DecidableEq, Repr

/-- `compute_string_style` from `floss/qs/main.py`; `none` means hidden. -/
def compute_string_style (s : TaggedString) (tag_rules : TagRules) : Option StyleKind :=
  let styles := s.tags.image (styleOfTag tag_rules)
  if "highlight" ∈ styles then some .highlighted
  else if "hide" ∈ styles then none
  else if "mute" ∈ styles then some .muted
  else some .defaultStyle

/-- The literal `tag_rules` dict built in `main` (lines 776-786). -/
def main_tag_rules : TagRules :=
  [("#code", "hide"), ("#reloc", "hide"), ("#common", "mute"), ("#zlib", "mute"),
   ("#bzip2", "mute"), ("#sqlite3", "mute"), ("#winapi", "mute"), ("#wolfssl", "mute"),
   ("#capa", "highlight")]

/-- The emission filter of `main` (line 788):
`list(filter(lambda s: not should_hide_string(s, tag_rules), tagged_strings))`. -/
def apply_hide_filter (tag_rules : TagRules) (tagged_strings : List TaggedString) :
    List TaggedString :=
  tagged_strings.filter (fun s => !should_hide_string s tag_rules)

/-- The literal `oss_database_filenames` tuple of `main` (lines 680-698). -/
def oss_database_filenames : List String :=
  ["brotli.jsonl.gz", "bzip2.jsonl.gz", "cryptopp.jsonl.gz", "curl.jsonl.gz",
   "detours.jsonl.gz", "jemalloc.jsonl.gz", "jsoncpp.jsonl.gz", "kcp.jsonl.gz",
   "liblzma.jsonl.gz", "libsodium.jsonl.gz", "libpcap.jsonl.gz", "mbedtls.jsonl.gz",
   "openssl.jsonl.gz", "sqlite3.jsonl.gz", "tomcrypt.jsonl.gz", "wolfssl.jsonl.gz",
   "zlib.jsonl.gz"]

/-- The library tag name derived from a database filename in the suppression loop
of `main`: a hash sign followed by `filename.partition(".")[0]`, the prefix of
the filename before its first dot. -/
def libTagName (filename : String) : String :=
  "#" ++ String.mk (filename.data.takeWhile (fun c => !(c == '.')))

/-- The count of surviving strings carrying `tagname` (the counting loop of `main`,
lines 760-763). -/
def tagCount (tagname : String) (tagged_strings : List TaggedString) : Nat :=
  (tagged_strings.filter (fun s => decide (tagname ∈ s.tags))).length

/-- `if tagname in string.tags: string.tags.remove(tagname)` applied to one string. -/
def eraseTag (tagname : String) (s : TaggedString) : TaggedString :=
  if tagname ∈ s.tags then { s with tags := s.tags.erase tagname } else s

/-- One iteration of the suppression loop of `main` (lines 756-774) for one
database filename: count the strings carrying the tag, and when the count is
strictly between 0 and 5, remove the tag from every string carrying it. -/
def suppressStep (tagged_strings : List TaggedString) (filename : String) :
    List TaggedString :=
  let tagname := libTagName filename
  let count := tagCount tagname tagged_strings
  if 0 < count ∧ count < 5 then tagged_strings.map (eraseTag tagname) else tagged_strings

/-- The whole suppression pass over a list of database filenames. -/
def suppressAll (filenames : List String) (tagged_strings : List TaggedString) :
    List TaggedString :=
  filenames.foldl suppressStep tagged_strings

/-- The corpus-level suppression pass exactly as run by `main`, over the
`oss_database_filenames` literal. -/
def suppress_low_support_tags (tagged_strings : List TaggedString) : List TaggedString :=
  suppressAll oss_database_filenames tagged_strings

/-- The section facts consumed by `compute_pe_layout`: the raw pointer used as the
sort key, the adjusted pointer `get_PointerToRawData_adj()` used for the range,
the raw size, and the decoded name. -/
structure SectionInfo where
  name : String
  pointerToRawData : Nat
  pointerToRawDataAdj : Nat
  sizeOfRawData : Nat
deriving DecidableEq, Repr

/-- One child node of the top-level `Layout`; only its range and name matter for
the coverage invariant (section nodes, the header segment, gap segments and the
overlay segment all carry just these). -/
structure LayoutChild where
  range : Range
  name : String
deriving DecidableEq, Repr

/-- The gap-filling loop of `compute_pe_layout` (lines 467-477): one gap segment
per adjacent pair whose ranges are not contiguous.  `e` is the end of the prior
sibling.  The gap range in the source is
`Range(pe_offset + prior.range.end, region.range.offset - prior.range.end)`;
the subtraction is on `Nat` here, which agrees with the source whenever siblings
do not overlap (the only case the theorems use). -/
def gapsFrom (pe_offset : Nat) (e : Nat) : List LayoutChild → List LayoutChild
  | [] => []
  | c :: rest =>
    (if e ≠ c.range.offset
        then [⟨⟨pe_offset + e, c.range.offset - e⟩, "gap"⟩] else [])
      ++ gapsFrom pe_offset c.range.stop rest

/-- Gaps between the adjacent pairs `(children[i-1], children[i])` for `i ≥ 1`. -/
def gapsOf (pe_offset : Nat) : List LayoutChild → List LayoutChild
  | [] => []
  | c :: rest => gapsFrom pe_offset c.range.stop rest

/-- The section loop of `compute_pe_layout` (lines 426-441): sections sorted by
`PointerToRawData`, zero-raw-size sections skipped, each contributing a node at
`Range(pe_offset + get_PointerToRawData_adj(), SizeOfRawData)`. -/
def sectionChildren (pe_offset : Nat) (sections : List SectionInfo) : List LayoutChild :=
  ((sections.mergeSort (fun a b => decide (a.pointerToRawData ≤ b.pointerToRawData))).filter
      (fun s => s.sizeOfRawData ≠ 0)).map
    (fun s => ⟨⟨pe_offset + s.pointerToRawDataAdj, s.sizeOfRawData⟩, s.name⟩)

/-- The header insertion (line 444) and overlay append (lines 451-462) of
`compute_pe_layout`: the header segment runs from the base offset to the first
section child, and an overlay segment covers any bytes after the last section
child (`layout.children[-1]` at that point, the header having been inserted at
index 0). -/
def withOverlayOf (filelen : Nat) (pe_offset : Nat) (firstSec : LayoutChild)
    (restSecs : List LayoutChild) : List LayoutChild :=
  let header : LayoutChild :=
    ⟨⟨pe_offset + 0, firstSec.range.offset - (pe_offset + 0)⟩, "PE header"⟩
  let lastSection := (firstSec :: restSecs).getLast (by simp)
  if lastSection.range.stop < pe_offset + filelen then
    (header :: firstSec :: restSecs)
      ++ [⟨⟨pe_offset + lastSection.range.stop, filelen - lastSection.range.stop⟩,
           "PE overlay"⟩]
  else header :: firstSec :: restSecs

/-- Header/overlay insertion, gap filling over adjacent pairs, and the final
re-sort by offset (line 479). -/
def layoutChildrenFrom (filelen : Nat) (pe_offset : Nat) (firstSec : LayoutChild)
    (restSecs : List LayoutChild) : List LayoutChild :=
  (withOverlayOf filelen pe_offset firstSec restSecs
      ++ gapsOf pe_offset (withOverlayOf filelen pe_offset firstSec restSecs)).mergeSort
    (fun a b => decide (a.range.offset ≤ b.range.offset))

/-- `compute_pe_layout` from `floss/qs/main.py`, restricted to the part that
builds the children of the top-level node (the resource walk attaches resources
as grandchildren below existing children, so it never changes this list).
Returns `none` when every section is dropped: the source then raises
`IndexError` at `layout.children[0]`. -/
def compute_pe_layout_children (filelen : Nat) (sections : List SectionInfo)
    (pe_offset : Nat) : Option (List LayoutChild) :=
  match sectionChildren pe_offset sections with
  | [] => none
  | firstSec :: restSecs => some (layoutChildrenFrom filelen pe_offset firstSec restSecs)

/-- Chained interval list: each element starts at or after the running end `e`,
and the final end is exactly `hi`.  The pre-gap child list of a well-formed
layout satisfies this, and gap filling turns it into full coverage. -/
def GTail (e : Nat) (l : List LayoutChild) (hi : Nat) : Prop :=
  match l with
  | [] => e = hi
  | c :: rest => e ≤ c.range.offset ∧ GTail c.range.stop rest hi

/-- Two layout children occupy disjoint byte ranges. -/
def rangesDisjoint (a b : LayoutChild) : Prop :=
  ∀ x : Nat, a.range.offset ≤ x → x < a.range.stop →
    b.range.offset ≤ x → x < b.range.stop → False

/-- The top-level node built by `compute_pe_layout`: its own range is
`Range(0, len(pe.__data__))` and its children are as above. -/
def compute_pe_layout (filelen : Nat) (sections : List SectionInfo) (pe_offset : Nat) :
    Option (Range × List LayoutChild) :=
  (compute_pe_layout_children filelen sections pe_offset).map (fun cs => (⟨0, filelen⟩, cs))

end FlossQs

namespace FlossRust

/-- `StringEncoding` from `floss/results.py` (not under `src/`; the rust extractor
only ever constructs the `UTF8` member). -/
inductive StringEncoding where
  | ASCII
  | UTF16LE
  | UTF8
deriving DecidableEq, Repr

/-- `StaticString` from `floss/results.py` as used by the rust extractor:
text, file offset, encoding.  Python string length and slicing are per character,
mirrored by `List Char`. -/
structure StaticString where
  string : List Char
  offset : Nat
  encoding : StringEncoding
deriving DecidableEq, Repr

/-- The predicate of the split scan in `split_strings`:
`string.offset < address < string.offset + len(string.string)`. -/
def inSplitRange (address : Nat) (string : StaticString) : Bool :=
  decide (string.offset < address) && decide (address < string.offset + string.string.length)

/-- `split_strings` from `floss/language/rust/extract.py`.  The Python function
mutates the list in place: it scans for the first string strictly containing
`address`, appends the fragments that reach `min_length` to the end of the list,
removes the first element equal to the original string, and returns. -/
def split_strings (static_strings : List StaticString) (address : Nat) (min_length : Nat) :
    List StaticString :=
  match static_strings.find? (inSplitRange address) with
  | none => static_strings
  | some string =>
    let rust_string := string.string.take (address - string.offset)
    let rest := string.string.drop (address - string.offset)
    let appended := static_strings
      ++ (if min_length ≤ rust_string.length
            then [{ string := rust_string, offset := string.offset, encoding := .UTF8 }] else [])
      ++ (if min_length ≤ rest.length
            then [{ string := rest, offset := address, encoding := .UTF8 }] else [])
    appended.erase string

/-- UTF-16LE code units of one character (`str.encode("utf-16le")`, per char).
Characters above the BMP encode as a surrogate pair; Lean `Char` cannot hold
unpaired surrogates, so the `"ignore"` error mode in the source is vacuous. -/
def utf16leChar (c : Char) : List Nat :=
  let v := c.toNat
  if v < 0x10000 then [v % 256, v / 256]
  else
    let u := v - 0x10000
    let hs := 0xD800 + u / 0x400
    let ls := 0xDC00 + u % 0x400
    [hs % 256, hs / 256, ls % 256, ls / 256]

/-- `s.encode("utf-16le", "ignore")` over a character list. -/
def utf16le : List Char → List Nat
  | [] => []
  | c :: rest => utf16leChar c ++ utf16le rest

/-- One scanner result tuple `(string, type, (start, end), is_null_terminated)`
as produced by `binary2strings.extract_all_strings` / `extract_string`. -/
structure B2SString where
  text : List Char
  typ : String
  start : Nat
  stop : Nat
  nullTerminated : Bool
deriving DecidableEq, Repr

/-- Python substring test `sub in hay` on strings. -/
def listContains (hay sub : List Char) : Bool :=
  match hay with
  | [] => sub.isEmpty
  | c :: t => sub.isPrefixOf (c :: t) || listContains t sub

/-- The loop body of `fix_b2s_wide_strings`, threading the `last_fixup` state.
`extract_string` stands for the external scanner `b2s.extract_string`; the
source re-invokes it on `buffer[start + 1:]`.  A `WIDE_STRING` whose text is
empty makes the source raise `IndexError` at `sd[0]`; here `sd.head?` is `none`,
which falls into the not-zero branch (no claim exercises an empty run). -/
def fixLoop (extract_string : List Nat → B2SString) (min_length : Nat) (buffer : List Nat)
    (last_fixup : Option B2SString) : List B2SString → List B2SString
  | [] => []
  | string :: rest =>
    if string.typ = "WIDE_STRING" then
      let sd := utf16le string.text
      if sd.head? = some 0 then
        let new_string := extract_string (buffer.drop (string.start + 1))
        let fixup : B2SString :=
          { text := new_string.text, typ := new_string.typ,
            start := new_string.start + string.start + 1,
            stop := new_string.stop + string.start + 1,
            nullTerminated := new_string.nullTerminated }
        let fixup2 := if fixup.text.length < min_length then none else some fixup
        fixLoop extract_string min_length buffer fixup2 rest
      else
        fixLoop extract_string min_length buffer last_fixup rest
    else
      match last_fixup with
      | some lf =>
        (if listContains lf.text string.text then lf else string) ::
          fixLoop extract_string min_length buffer none rest
      | none => string :: fixLoop extract_string min_length buffer none rest

/-- `fix_b2s_wide_strings` from `floss/language/rust/extract.py`. -/
def fix_b2s_wide_strings (extract_string : List Nat → B2SString)
    (strings : List B2SString) (min_length : Nat) (buffer : List Nat) : List B2SString :=
  fixLoop extract_string min_length buffer none strings

/-- `filter_and_transform_utf8_strings` from `floss/language/rust/extract.py`:
keep UTF8-classified runs, strip newlines, rebase offsets by `start_rdata`. -/
def filter_and_transform_utf8_strings (strings : List B2SString) (start_rdata : Nat) :
    List StaticString :=
  strings.filterMap (fun string =>
    if string.typ = "UTF8" then
      some { string := string.text.filter (fun c => !(c == Char.ofNat 10)),
             offset := string.start + start_rdata, encoding := .UTF8 }
    else none)

def IMAGE_FILE_MACHINE_I386 : Nat := 0x14c
def IMAGE_FILE_MACHINE_AMD64 : Nat := 0x8664

/-- The `.rdata` section facts consumed by `get_string_blob_strings`. -/
structure RdataSection where
  pointerToRawData : Nat
  sizeOfRawData : Nat
  virtualAddress : Nat
  data : List Nat

/-- The xref loop at the end of `get_string_blob_strings`: each virtual address
is rebased (`addr - image_base - virtual_address + pointer_to_raw_data`, which
can go negative, hence `Int`), filtered to the `.rdata` file-offset range, and
used to split candidates. -/
def apply_xref_splits (static_strings : List StaticString) (min_length : Nat)
    (image_base virtual_address pointer_to_raw_data start_rdata end_rdata : Int)
    (xrefs : List Int) : List StaticString :=
  xrefs.foldl (fun acc addr =>
    let address := addr - image_base - virtual_address + pointer_to_raw_data
    if start_rdata ≤ address ∧ address < end_rdata then
      split_strings acc address.toNat min_length
    else acc) static_strings

/-- `get_string_blob_strings` from `floss/language/rust/extract.py`.  The pe
object is abstracted into its consumed facts: the machine type, the image base,
the `.rdata` section (`none` models the `ValueError` path when the section is
missing), the two external scanner entry points, and the four xref address
sources.  The architecture branch selects which xref sources feed the splitter;
any other machine type logs an error and returns the empty list. -/
def get_string_blob_strings (machine : Nat) (image_base : Int)
    (rdata : Option RdataSection)
    (extract_all_strings : List Nat → Nat → List B2SString)
    (extract_string : List Nat → B2SString)
    (struct_string_addrs xrefs_lea xrefs_push xrefs_mov : List Int)
    (min_length : Nat) : List StaticString :=
  match rdata with
  | none => []
  | some rdata_section =>
    let start_rdata := rdata_section.pointerToRawData
    let end_rdata := start_rdata + rdata_section.sizeOfRawData
    let virtual_address := rdata_section.virtualAddress
    let pointer_to_raw_data := rdata_section.pointerToRawData
    let buffer_rdata := rdata_section.data
    let strings := extract_all_strings buffer_rdata min_length
    let fixed_strings := fix_b2s_wide_strings extract_string strings min_length buffer_rdata
    let static_strings := filter_and_transform_utf8_strings fixed_strings start_rdata
    if machine = IMAGE_FILE_MACHINE_I386 then
      apply_xref_splits static_strings min_length image_base (virtual_address : Int)
        (pointer_to_raw_data : Int) (start_rdata : Int) (end_rdata : Int)
        (struct_string_addrs ++ xrefs_lea ++ xrefs_push ++ xrefs_mov)
    else if machine = IMAGE_FILE_MACHINE_AMD64 then
      apply_xref_splits static_strings min_length image_base (virtual_address : Int)
        (pointer_to_raw_data : Int) (start_rdata : Int) (end_rdata : Int)
        (struct_string_addrs ++ xrefs_lea)
    else
      []

end FlossRust


section ConcreteInputs

open FlossQs FlossRust

def esEmpty : ExtractedString := ⟨[], ⟨0, 0⟩, .ascii⟩

def tsHighlightHide : TaggedString := ⟨esEmpty, {"#capa", "#code"}, ""⟩
def tsHide : TaggedString := ⟨esEmpty, {"#code", "#common"}, ""⟩
def tsMute : TaggedString := ⟨esEmpty, {"#common"}, ""⟩
def tsPlain : TaggedString := ⟨esEmpty, ∅, ""⟩

def abcdefgh : StaticString := ⟨['A', 'B', 'C', 'D', 'E', 'F', 'G', 'H'], 100, .UTF8⟩

def demoRdata : RdataSection := ⟨0x400, 0x200, 0x1000, []⟩

def demoExtractAll : List Nat → Nat → List B2SString :=
  fun _ _ => [⟨['h', 'e', 'l', 'l', 'o'], "UTF8", 0, 5, false⟩]

def demoExtractOne : List Nat → B2SString := fun _ => ⟨[], "UTF8", 0, 0, false⟩

/-- A WIDE run whose first UTF-16LE byte is zero (first char U+0100). -/
def cWideZero : B2SString := ⟨[Char.ofNat 256], "WIDE_STRING", 0, 2, false⟩

/-- A WIDE run whose first UTF-16LE byte is nonzero (first char A, low byte 0x41). -/
def cWideA : B2SString := ⟨['A', 'B', 'C'], "WIDE_STRING", 0, 6, false⟩

/-- The UTF8 run immediately following the wide run. -/
def cUtf8 : B2SString := ⟨['b', 'c', 'd'], "UTF8", 3, 6, false⟩

/-- A scanner stub whose recovered candidate textually contains `cUtf8`. -/
def cOracle : List Nat → B2SString := fun _ => ⟨['a', 'b', 'c', 'd'], "UTF8", 0, 4, false⟩

def demoAsciiBuf : List Nat := [104, 101, 108, 108, 111, 33]

def demoAsciiEs : ExtractedString := ⟨demoAsciiBuf, ⟨0, 6⟩, .ascii⟩

def tsZlib : TaggedString := ⟨esEmpty, {"#zlib"}, ""⟩

def zlib5 : List TaggedString := [tsZlib, tsZlib, tsZlib, tsZlib, tsZlib]

def zlibSuppressedHead : TaggedString := (suppress_low_support_tags [tsZlib]).headD tsZlib

def demoSection : SectionInfo := ⟨".text", 0x400, 0x400, 0x200⟩

end ConcreteInputs

section C10Theorems

open FlossQs

/-- C10: range containment is strict at the end, so no range contains itself. -/
theorem range_not_contains_self_and_no_reloc_tag
    (r : Range) (es : ExtractedString) (h : es.range = r) :
    r.containsRange r = false ∧ check_is_reloc (some r) es = [] := by
  have hc : r.containsRange r = false := by
    simp [Range.containsRange, Range.containsPt, Range.stop]
  exact ⟨hc, by simp [check_is_reloc, h, hc]⟩

/-- C10 witness: the theorem applied at the concrete range `[100, 108)`. -/
theorem range_not_contains_self_and_no_reloc_tag_witness :
    Range.containsRange ⟨100, 8⟩ ⟨100, 8⟩ = false
    ∧ check_is_reloc (some ⟨100, 8⟩) ⟨[], ⟨100, 8⟩, .ascii⟩ = [] :=
  range_not_contains_self_and_no_reloc_tag ⟨100, 8⟩ ⟨[], ⟨100, 8⟩, .ascii⟩ rfl

end C10Theorems

section PolicyTheorems

open FlossQs

theorem compute_style_highlight (s : TaggedString) (tag_rules : TagRules)
    (h : ∃ t ∈ s.tags, styleOfTag tag_rules t = "highlight") :
    compute_string_style s tag_rules = some .highlighted := by
  simp only [compute_string_style]
  rw [if_pos (Finset.mem_image.mpr h)]

theorem compute_style_hide (s : TaggedString) (tag_rules : TagRules)
    (hnl : ¬ ∃ t ∈ s.tags, styleOfTag tag_rules t = "highlight")
    (h : ∃ t ∈ s.tags, styleOfTag tag_rules t = "hide") :
    compute_string_style s tag_rules = none := by
  simp only [compute_string_style]
  rw [if_neg (fun hc => hnl (Finset.mem_image.mp hc)), if_pos (Finset.mem_image.mpr h)]

theorem compute_style_mute (s : TaggedString) (tag_rules : TagRules)
    (hnl : ¬ ∃ t ∈ s.tags, styleOfTag tag_rules t = "highlight")
    (hnh : ¬ ∃ t ∈ s.tags, styleOfTag tag_rules t = "hide")
    (h : ∃ t ∈ s.tags, styleOfTag tag_rules t = "mute") :
    compute_string_style s tag_rules = some .muted := by
  simp only [compute_string_style]
  rw [if_neg (fun hc => hnl (Finset.mem_image.mp hc)),
      if_neg (fun hc => hnh (Finset.mem_image.mp hc)), if_pos (Finset.mem_image.mpr h)]

theorem compute_style_default (s : TaggedString) (tag_rules : TagRules)
    (hnl : ¬ ∃ t ∈ s.tags, styleOfTag tag_rules t = "highlight")
    (hnh : ¬ ∃ t ∈ s.tags, styleOfTag tag_rules t = "hide")
    (hnm : ¬ ∃ t ∈ s.tags, styleOfTag tag_rules t = "mute") :
    compute_string_style s tag_rules = some .defaultStyle := by
  simp only [compute_string_style]
  rw [if_neg (fun hc => hnl (Finset.mem_image.mp hc)),
      if_neg (fun hc => hnh (Finset.mem_image.mp hc)),
      if_neg (fun hc => hnm (Finset.mem_image.mp hc))]

/-- C9: disposition resolution follows the fixed precedence
highlight > hide > mute > default, where a tag maps to the action
`tag_rules.get(tag, "mute")`. -/
theorem compute_string_style_precedence (s : TaggedString) (tag_rules : TagRules) :
    ((∃ t ∈ s.tags, styleOfTag tag_rules t = "highlight") →
        compute_string_style s tag_rules = some .highlighted)
  ∧ ((¬ ∃ t ∈ s.tags, styleOfTag tag_rules t = "highlight") →
     (∃ t ∈ s.tags, styleOfTag tag_rules t = "hide") →
        compute_string_style s tag_rules = none)
  ∧ ((¬ ∃ t ∈ s.tags, styleOfTag tag_rules t = "highlight") →
     (¬ ∃ t ∈ s.tags, styleOfTag tag_rules t = "hide") →
     (∃ t ∈ s.tags, styleOfTag tag_rules t = "mute") →
        compute_string_style s tag_rules = some .muted)
  ∧ ((¬ ∃ t ∈ s.tags, styleOfTag tag_rules t = "highlight") →
     (¬ ∃ t ∈ s.tags, styleOfTag tag_rules t = "hide") →
     (¬ ∃ t ∈ s.tags, styleOfTag tag_rules t = "mute") →
        compute_string_style s tag_rules = some .defaultStyle) :=
  ⟨compute_style_highlight s tag_rules,
   compute_style_hide s tag_rules,
   compute_style_mute s tag_rules,
   compute_style_default s tag_rules⟩

/-- C9 witness: the precedence theorem applied at one concrete tag set per branch,
under the tag rules of `main`. -/
theorem compute_string_style_precedence_witness :
    compute_string_style tsHighlightHide main_tag_rules = some .highlighted
  ∧ compute_string_style tsHide main_tag_rules = none
  ∧ compute_string_style tsMute main_tag_rules = some .muted
  ∧ compute_string_style tsPlain main_tag_rules = some .defaultStyle :=
  ⟨(compute_string_style_precedence tsHighlightHide main_tag_rules).1 (by decide),
   (compute_string_style_precedence tsHide main_tag_rules).2.1 (by decide) (by decide),
   (compute_string_style_precedence tsMute main_tag_rules).2.2.1
     (by decide) (by decide) (by decide),
   (compute_string_style_precedence tsPlain main_tag_rules).2.2.2
     (by decide) (by decide) (by decide)⟩

/-- C1 counterexample: a string tagged with both a highlight-mapped tag (`#capa`)
and a hide-mapped tag (`#code`) resolves to the highlight style, yet the emission
filter of `main` (line 788) removes it, because removal is decided by
`should_hide_string`, which ignores the highlight precedence. -/
theorem highlight_hide_string_is_removed_counterexample :
    compute_string_style tsHighlightHide main_tag_rules = some .highlighted
  ∧ should_hide_string tsHighlightHide main_tag_rules = true
  ∧ apply_hide_filter main_tag_rules [tsHighlightHide] = [] := by decide

/-- C1 amended: a string whose tags contain both a hide-mapped and a
highlight-mapped tag resolves to the highlight style under
`compute_string_style`, but it IS removed before emission: the filter uses
`should_hide_string`, which hides on any hide-mapped tag regardless of
highlight. -/
theorem hide_tag_overrides_highlight_for_removal (s : TaggedString) (tag_rules : TagRules)
    (hhide : ∃ t ∈ s.tags, tagRuleGet tag_rules t = some "hide")
    (hhl : ∃ t ∈ s.tags, tagRuleGet tag_rules t = some "highlight") :
    compute_string_style s tag_rules = some .highlighted
  ∧ should_hide_string s tag_rules = true
  ∧ apply_hide_filter tag_rules [s] = [] := by
  have h1 : compute_string_style s tag_rules = some .highlighted := by
    apply compute_style_highlight
    obtain ⟨t, ht, he⟩ := hhl
    exact ⟨t, ht, by simp [styleOfTag, he]⟩
  have h2 : should_hide_string s tag_rules = true := by
    simp only [should_hide_string, decide_eq_true_eq]
    exact hhide
  refine ⟨h1, h2, ?_⟩
  simp [apply_hide_filter, List.filter_cons, h2]

/-- C1 witness for the amended statement, at the same concrete tagged string as
the counterexample. -/
theorem hide_tag_overrides_highlight_for_removal_witness :
    compute_string_style tsHighlightHide main_tag_rules = some .highlighted
  ∧ should_hide_string tsHighlightHide main_tag_rules = true
  ∧ apply_hide_filter main_tag_rules [tsHighlightHide] = [] :=
  hide_tag_overrides_highlight_for_removal tsHighlightHide main_tag_rules
    (by decide) (by decide)

end PolicyTheorems

section SplitTheorems

open FlossRust

/-- C4 counterexample: on `{"ABCDEFGH", offset 100}` with reference address 104 and
minimum length 5, both fragments have length 4, so `split_strings` drops both and
the result is empty — not the claimed single longer-or-equal fragment. -/
theorem split_min5_at_104_counterexample :
    split_strings [abcdefgh] 104 5 = [] ∧ (split_strings [abcdefgh] 104 5).length ≠ 1 := by
  decide

/-- C4 amended: with minimum length 4 the split at 104 yields exactly the two
fragments ABCD@100 and EFGH@104 and removes the original; with minimum length 5
a split at 105 yields only the surviving fragment ABCDE@100; and at 104 with
minimum length 5 both fragments fall below the minimum, so both are dropped and
the original disappears (empty result). -/
theorem split_exactness_examples :
    split_strings [abcdefgh] 104 4
        = [⟨['A', 'B', 'C', 'D'], 100, .UTF8⟩, ⟨['E', 'F', 'G', 'H'], 104, .UTF8⟩]
  ∧ split_strings [abcdefgh] 105 5 = [⟨['A', 'B', 'C', 'D', 'E'], 100, .UTF8⟩]
  ∧ split_strings [abcdefgh] 104 5 = [] := by
  decide

/-- C5: an address not strictly inside any candidate (in particular one equal to a
start or end offset) leaves the candidate list completely unchanged. -/
theorem split_noop_of_no_strict_container (static_strings : List StaticString)
    (address min_length : Nat)
    (h : ∀ s ∈ static_strings, ¬ (s.offset < address ∧ address < s.offset + s.string.length)) :
    split_strings static_strings address min_length = static_strings := by
  unfold split_strings
  have hf : static_strings.find? (inSplitRange address) = none := by
    apply List.find?_eq_none.mpr
    intro s hs
    simpa [inSplitRange] using h s hs
  rw [hf]

/-- C5 witness: addresses at the exact start (100) and exact end (108) of the only
candidate do not trigger a split. -/
theorem split_noop_witness :
    split_strings [abcdefgh] 100 4 = [abcdefgh]
  ∧ split_strings [abcdefgh] 108 4 = [abcdefgh] :=
  ⟨split_noop_of_no_strict_container [abcdefgh] 100 4 (by decide),
   split_noop_of_no_strict_container [abcdefgh] 108 4 (by decide)⟩

end SplitTheorems

section BlobModeTheorems

open FlossRust

/-- C3 counterexample: for a machine type that is neither I386 nor AMD64 (here ARM,
0x1c0), `get_string_blob_strings` returns the empty list even though the
extracted (unsplit) candidate list is nonempty — extraction does not continue. -/
theorem unsupported_arch_counterexample :
    get_string_blob_strings 0x1c0 0x400000 (some demoRdata) demoExtractAll demoExtractOne
        [] [] [] [] 4 = []
  ∧ filter_and_transform_utf8_strings
        (fix_b2s_wide_strings demoExtractOne (demoExtractAll demoRdata.data 4) 4 demoRdata.data)
        demoRdata.pointerToRawData
      = [⟨['h', 'e', 'l', 'l', 'o'], 0x400, .UTF8⟩] := by
  decide

/-- C3 amended: when the machine type is neither I386 nor AMD64, reference-address
harvesting is skipped and `get_string_blob_strings` logs an error and returns the
EMPTY list — the extracted candidates are discarded, not returned unsplit. -/
theorem unsupported_arch_returns_empty (machine : Nat) (image_base : Int)
    (rdata : Option RdataSection)
    (extract_all_strings : List Nat → Nat → List B2SString)
    (extract_string : List Nat → B2SString)
    (struct_string_addrs xrefs_lea xrefs_push xrefs_mov : List Int) (min_length : Nat)
    (h1 : machine ≠ IMAGE_FILE_MACHINE_I386) (h2 : machine ≠ IMAGE_FILE_MACHINE_AMD64) :
    get_string_blob_strings machine image_base rdata extract_all_strings extract_string
      struct_string_addrs xrefs_lea xrefs_push xrefs_mov min_length = [] := by
  cases rdata with
  | none => rfl
  | some sec => simp [get_string_blob_strings, h1, h2]

/-- C3 witness for the amended statement, at the ARM machine type. -/
theorem unsupported_arch_returns_empty_witness :
    get_string_blob_strings 0x1c0 0x400000 (some demoRdata) demoExtractAll demoExtractOne
      [] [] [] [] 4 = [] :=
  unsupported_arch_returns_empty 0x1c0 0x400000 (some demoRdata) demoExtractAll
    demoExtractOne [] [] [] [] 4 (by decide) (by decide)

end BlobModeTheorems

section WideRepairTheorems

open FlossRust

/-- C2 counterexample: the repair trigger is the opposite of the claim.  For the
wide run whose first UTF-16LE byte IS zero the scanner is re-invoked and the
following UTF8 run is replaced by the recovered candidate (so repair IS
attempted), while for the wide run whose first byte is NOT zero nothing is
repaired and the following UTF8 run is kept as scanned. -/
theorem wide_repair_trigger_counterexample :
    utf16le cWideZero.text = [0, 1]
  ∧ fix_b2s_wide_strings cOracle [cWideZero, cUtf8] 4 []
      = [⟨['a', 'b', 'c', 'd'], "UTF8", 1, 5, false⟩]
  ∧ fix_b2s_wide_strings cOracle [cWideZero, cUtf8] 4 [] ≠ [cUtf8]
  ∧ utf16le cWideA.text = [0x41, 0, 0x42, 0, 0x43, 0]
  ∧ fix_b2s_wide_strings cOracle [cWideA, cUtf8] 4 [] = [cUtf8] := by
  decide

/-- C2 amended: in the repair pass, a WIDE_STRING run triggers the scanner
re-invocation (one byte past its start) exactly when the FIRST byte of its
UTF-16LE re-encoding IS zero; when that byte is nonzero the run is dropped with
no repair attempted, and the staged fixup replaces the immediately following
non-wide run exactly when it reaches the minimum length and textually contains
that run. -/
theorem wide_repair_behavior (extract_string : List Nat → B2SString)
    (min_length : Nat) (buffer : List Nat) (lf : Option B2SString)
    (w u : B2SString) (rest : List B2SString)
    (hw : w.typ = "WIDE_STRING") (hu : u.typ ≠ "WIDE_STRING") :
    let ns := extract_string (buffer.drop (w.start + 1))
    let fx : B2SString :=
      ⟨ns.text, ns.typ, ns.start + w.start + 1, ns.stop + w.start + 1, ns.nullTerminated⟩
    ((utf16le w.text).head? ≠ some 0 →
        fixLoop extract_string min_length buffer lf (w :: rest)
          = fixLoop extract_string min_length buffer lf rest)
  ∧ ((utf16le w.text).head? = some 0 → min_length ≤ fx.text.length →
        listContains fx.text u.text = true →
        fixLoop extract_string min_length buffer lf (w :: u :: rest)
          = fx :: fixLoop extract_string min_length buffer none rest)
  ∧ ((utf16le w.text).head? = some 0 → fx.text.length < min_length →
        fixLoop extract_string min_length buffer lf (w :: u :: rest)
          = u :: fixLoop extract_string min_length buffer none rest)
  ∧ ((utf16le w.text).head? = some 0 → min_length ≤ fx.text.length →
        listContains fx.text u.text = false →
        fixLoop extract_string min_length buffer lf (w :: u :: rest)
          = u :: fixLoop extract_string min_length buffer none rest) := by
  intro ns fx
  refine ⟨?_, ?_, ?_, ?_⟩
  · intro hnz
    simp only [fixLoop, hw, if_true, reduceIte, hnz, if_false]
  · intro hz hlen hcont
    simp only [fixLoop, hw, reduceIte, hz, Nat.not_lt.mpr hlen, if_false, hu, hcont]
  · intro hz hshort
    simp only [fixLoop, hw, reduceIte, hz, hshort, if_true, hu]
  · intro hz hlen hncont
    simp only [fixLoop, hw, reduceIte, hz, Nat.not_lt.mpr hlen, if_false, hu, hncont,
      Bool.false_eq_true, reduceIte]

/-- C2 witness for the amended statement: the behavior theorem applied at the two
concrete wide runs of the counterexample. -/
theorem wide_repair_behavior_witness :
    fixLoop cOracle 4 [] none [cWideA, cUtf8] = fixLoop cOracle 4 [] none [cUtf8]
  ∧ fixLoop cOracle 4 [] none [cWideZero, cUtf8]
      = ⟨['a', 'b', 'c', 'd'], "UTF8", 1, 5, false⟩ :: fixLoop cOracle 4 [] none [] :=
  ⟨(wide_repair_behavior cOracle 4 [] none cWideA cUtf8 [cUtf8] (by decide) (by decide)).1
      (by decide),
   (wide_repair_behavior cOracle 4 [] none cWideZero cUtf8 [] (by decide) (by decide)).2.1
      (by decide) (by decide) (by decide)⟩

end WideRepairTheorems

section AsciiExtractionTheorems

open FlossQs

theorem asciiRuns_mem (n pos : Nat) (buf : List Nat) :
    ∀ p ∈ asciiRuns n pos buf,
      pos ≤ p.1 ∧ n ≤ p.2.length ∧ ∀ b ∈ p.2, isAsciiByte b = true := by
  induction pos, buf using asciiRuns.induct n with
  | case1 pos => simp [asciiRuns]
  | case2 pos b rest hb run rem ih =>
    intro p hp
    rw [asciiRuns] at hp
    simp only [hb, if_true, List.mem_append] at hp
    rcases hp with hp | hp
    · by_cases hn : n ≤ (b :: rest.takeWhile isAsciiByte).length
      · rw [if_pos hn] at hp
        simp only [List.mem_singleton] at hp
        subst hp
        refine ⟨Nat.le_refl _, hn, ?_⟩
        intro x hx
        rcases List.mem_cons.mp hx with h | h
        · subst h; exact hb
        · exact List.mem_takeWhile_imp h
      · rw [if_neg hn] at hp
        simp at hp
    · have h := ih p hp
      exact ⟨by omega, h.2.1, h.2.2⟩
  | case3 pos b rest hb ih =>
    intro p hp
    rw [asciiRuns] at hp
    simp only [hb, if_false] at hp
    have h := ih p hp
    exact ⟨by omega, h.2.1, h.2.2⟩

theorem asciiRuns_pairwise (n pos : Nat) (buf : List Nat) :
    List.Pairwise (fun a b => a.1 + a.2.length ≤ b.1) (asciiRuns n pos buf) := by
  induction pos, buf using asciiRuns.induct n with
  | case1 pos => simp [asciiRuns]
  | case2 pos b rest hb run rem ih =>
    rw [asciiRuns]
    simp only [hb, if_true]
    apply List.pairwise_append.mpr
    refine ⟨?_, ih, ?_⟩
    · by_cases hn : n ≤ (b :: rest.takeWhile isAsciiByte).length
      · rw [if_pos hn]; exact List.pairwise_singleton _ _
      · rw [if_neg hn]; exact List.Pairwise.nil
    · intro a ha q hq
      by_cases hn : n ≤ (b :: rest.takeWhile isAsciiByte).length
      · rw [if_pos hn] at ha
        simp only [List.mem_singleton] at ha
        subst ha
        exact (asciiRuns_mem n _ _ q hq).1
      · rw [if_neg hn] at ha; simp at ha
  | case3 pos b rest hb ih =>
    rw [asciiRuns]
    simp only [hb, if_false]
    exact ih

/-- C7: direct-mode ASCII extraction returns only runs of alphabet bytes of length
at least `n`, with the range length equal to the text length; the returned runs
are mutually non-overlapping and sorted ascending by offset (each run ends at or
before the next one starts); and the empty buffer yields no output. -/
theorem extract_ascii_strings_spec (buf : List Nat) (n : Nat) :
    (∀ es ∈ extract_ascii_strings buf n,
        n ≤ es.string.length ∧ es.range.length = es.string.length
          ∧ ∀ b ∈ es.string, isAsciiByte b = true)
  ∧ List.Pairwise (fun a b => a.range.stop ≤ b.range.offset) (extract_ascii_strings buf n)
  ∧ extract_ascii_strings [] n = [] := by
  refine ⟨?_, ?_, rfl⟩
  · intro es hes
    unfold extract_ascii_strings at hes
    by_cases hb : buf.isEmpty
    · rw [if_pos hb] at hes; simp at hes
    · rw [if_neg hb] at hes
      rcases List.mem_map.mp hes with ⟨p, hp, hpe⟩
      have h := asciiRuns_mem n 0 buf p hp
      subst hpe
      exact ⟨h.2.1, rfl, h.2.2⟩
  · unfold extract_ascii_strings
    by_cases hb : buf.isEmpty
    · rw [if_pos hb]; exact List.Pairwise.nil
    · rw [if_neg hb]
      exact List.Pairwise.map _ (fun a b h => by simpa [Range.stop] using h)
        (asciiRuns_pairwise n 0 buf)

/-- C7 witness: the extraction theorem applied at the concrete buffer
`hello!`, whose single run is the whole buffer. -/
theorem extract_ascii_strings_spec_witness :
    extract_ascii_strings demoAsciiBuf 6 = [demoAsciiEs]
  ∧ 6 ≤ demoAsciiEs.string.length :=
  ⟨by simp [extract_ascii_strings, asciiRuns, isAsciiByte, demoAsciiBuf, demoAsciiEs],
   ((extract_ascii_strings_spec demoAsciiBuf 6).1 demoAsciiEs
     (by simp [extract_ascii_strings, asciiRuns, isAsciiByte, demoAsciiBuf, demoAsciiEs])).1⟩

end AsciiExtractionTheorems

section SuppressionTheorems

open FlossQs

theorem mem_tags_eraseTag_of_ne {n t : String} (s : TaggedString) (hne : n ≠ t) :
    t ∈ (eraseTag n s).tags ↔ t ∈ s.tags := by
  unfold eraseTag
  by_cases h : n ∈ s.tags
  · simp only [h, if_true, Finset.mem_erase]
    constructor
    · exact fun hm => hm.2
    · exact fun hm => ⟨fun he => hne he.symm, hm⟩
  · simp [h]

theorem not_mem_tags_eraseTag_self {t : String} (s : TaggedString) :
    t ∉ (eraseTag t s).tags := by
  unfold eraseTag
  by_cases h : t ∈ s.tags
  · simp [h]
  · simp [h]

theorem mem_tags_eraseTag_imp {n t : String} (s : TaggedString) :
    t ∈ (eraseTag n s).tags → t ∈ s.tags := by
  unfold eraseTag
  by_cases h : n ∈ s.tags
  · simp only [h, if_true]
    exact fun hm => Finset.mem_of_mem_erase hm
  · simp only [h, if_false]
    exact id

theorem suppressStep_cases (l : List TaggedString) (f : String) :
    suppressStep l f = l.map (eraseTag (libTagName f)) ∨ suppressStep l f = l := by
  unfold suppressStep
  by_cases h : 0 < tagCount (libTagName f) l ∧ tagCount (libTagName f) l < 5
  · exact Or.inl (if_pos h)
  · exact Or.inr (if_neg h)

theorem suppressStep_length (l : List TaggedString) (f : String) :
    (suppressStep l f).length = l.length := by
  rcases suppressStep_cases l f with h | h <;> simp [h]

theorem tagCount_map_eraseTag_of_ne {n t : String} (l : List TaggedString) (hne : n ≠ t) :
    tagCount t (l.map (eraseTag n)) = tagCount t l := by
  unfold tagCount
  rw [List.filter_map, List.length_map]
  congr 1
  apply List.filter_congr
  intro s _
  simp [mem_tags_eraseTag_of_ne s hne]

theorem suppressStep_tagCount_of_ne {t : String} (l : List TaggedString) (f : String)
    (hne : libTagName f ≠ t) : tagCount t (suppressStep l f) = tagCount t l := by
  rcases suppressStep_cases l f with h | h
  · rw [h, tagCount_map_eraseTag_of_ne l hne]
  · rw [h]

theorem suppressAll_cons (f : String) (fs : List String) (l : List TaggedString) :
    suppressAll (f :: fs) l = suppressAll fs (suppressStep l f) := rfl

theorem suppressAll_not_mem_preserved {t : String} (fs : List String)
    (l : List TaggedString) (h : ∀ s ∈ l, t ∉ s.tags) :
    ∀ s ∈ suppressAll fs l, t ∉ s.tags := by
  induction fs generalizing l with
  | nil => exact h
  | cons f fs ih =>
    rw [suppressAll_cons]
    apply ih
    intro s hs
    rcases suppressStep_cases l f with hc | hc
    · rw [hc] at hs
      rcases List.mem_map.mp hs with ⟨s0, hs0, rfl⟩
      intro hm
      exact h s0 hs0 (mem_tags_eraseTag_imp s0 hm)
    · rw [hc] at hs
      exact h s hs

theorem suppressAll_small {t : String} (fs : List String) (l : List TaggedString)
    (hmem : t ∈ fs.map libTagName) (h1 : 1 ≤ tagCount t l) (h4 : tagCount t l ≤ 4) :
    ∀ s ∈ suppressAll fs l, t ∉ s.tags := by
  induction fs generalizing l with
  | nil => simp at hmem
  | cons f fs ih =>
    rw [suppressAll_cons]
    by_cases hf : libTagName f = t
    · have hstep : suppressStep l f = l.map (eraseTag (libTagName f)) := by
        unfold suppressStep
        rw [if_pos (by rw [hf]; omega)]
      rw [hstep]
      apply suppressAll_not_mem_preserved
      intro s hs
      rcases List.mem_map.mp hs with ⟨s0, _, rfl⟩
      rw [hf]
      exact not_mem_tags_eraseTag_self s0
    · have hmem2 : t ∈ fs.map libTagName := by
        rcases List.mem_map.mp hmem with ⟨a, ha, hat⟩
        rcases List.mem_cons.mp ha with rfl | ha2
        · exact absurd hat hf
        · exact List.mem_map.mpr ⟨a, ha2, hat⟩
      have hc := suppressStep_tagCount_of_ne l f hf
      exact ih (suppressStep l f) hmem2 (by omega) (by omega)

theorem forall₂_tagIff_trans {t : String} :
    ∀ {a b c : List TaggedString},
      List.Forall₂ (fun x y => (t ∈ y.tags ↔ t ∈ x.tags)) a b →
      List.Forall₂ (fun x y => (t ∈ y.tags ↔ t ∈ x.tags)) b c →
      List.Forall₂ (fun x y => (t ∈ y.tags ↔ t ∈ x.tags)) a c := by
  intro a b c hab hbc
  induction hab generalizing c with
  | nil =>
    cases hbc
    exact List.Forall₂.nil
  | cons hxy _ ih =>
    cases hbc with
    | cons hyz hrest => exact List.Forall₂.cons (hyz.trans hxy) (ih hrest)

theorem suppressStep_forall₂ {t : String} (l : List TaggedString) (f : String)
    (h : libTagName f ≠ t ∨ suppressStep l f = l) :
    List.Forall₂ (fun x y => (t ∈ y.tags ↔ t ∈ x.tags)) l (suppressStep l f) := by
  rcases h with hne | hid
  · rcases suppressStep_cases l f with hc | hc
    · rw [hc]
      rw [List.forall₂_map_right_iff]
      exact List.forall₂_same.mpr (fun s _ => mem_tags_eraseTag_of_ne s hne)
    · rw [hc]
      exact List.forall₂_same.mpr (fun s _ => Iff.rfl)
  · rw [hid]
    exact List.forall₂_same.mpr (fun s _ => Iff.rfl)

theorem suppressAll_big {t : String} (fs : List String) (l : List TaggedString)
    (h5 : 5 ≤ tagCount t l) :
    List.Forall₂ (fun x y => (t ∈ y.tags ↔ t ∈ x.tags)) l (suppressAll fs l) := by
  induction fs generalizing l with
  | nil => exact List.forall₂_same.mpr (fun s _ => Iff.rfl)
  | cons f fs ih =>
    rw [suppressAll_cons]
    by_cases hf : libTagName f = t
    · have hid : suppressStep l f = l := by
        unfold suppressStep
        rw [if_neg (by rw [hf]; omega)]
      have h5s : 5 ≤ tagCount t (suppressStep l f) := by rw [hid]; exact h5
      exact forall₂_tagIff_trans (suppressStep_forall₂ l f (Or.inr hid)) (ih _ h5s)
    · have h5s : 5 ≤ tagCount t (suppressStep l f) := by
        rw [suppressStep_tagCount_of_ne l f hf]; exact h5
      exact forall₂_tagIff_trans (suppressStep_forall₂ l f (Or.inl hf)) (ih _ h5s)

/-- C6: for each library-fingerprint tag category of the suppression loop, with
`c` the number of surviving strings carrying the tag: when `1 ≤ c ≤ 4` the whole
pass removes the tag from every string, and when `c ≥ 5` the pass preserves the
tag membership of every string pointwise (no string has the tag removed). -/
theorem oss_tag_suppression (tagged : List TaggedString) (filename : String)
    (hf : filename ∈ oss_database_filenames) :
    (1 ≤ tagCount (libTagName filename) tagged →
     tagCount (libTagName filename) tagged ≤ 4 →
        ∀ s ∈ suppress_low_support_tags tagged, libTagName filename ∉ s.tags)
  ∧ (5 ≤ tagCount (libTagName filename) tagged →
        List.Forall₂
          (fun orig res => (libTagName filename ∈ res.tags ↔ libTagName filename ∈ orig.tags))
          tagged (suppress_low_support_tags tagged)) := by
  constructor
  · intro h1 h4
    exact suppressAll_small oss_database_filenames tagged
      (List.mem_map_of_mem _ hf) h1 h4
  · intro h5
    exact suppressAll_big oss_database_filenames tagged h5

/-- C6 witness: with the `#zlib` tag on exactly one string the pass removes it;
with the tag on five strings the pass preserves membership pointwise. -/
theorem oss_tag_suppression_witness :
    "#zlib" ∉ zlibSuppressedHead.tags
  ∧ List.Forall₂ (fun orig res => ("#zlib" ∈ res.tags ↔ "#zlib" ∈ orig.tags))
      zlib5 (suppress_low_support_tags zlib5) := by
  have he : libTagName "zlib.jsonl.gz" = "#zlib" := by decide
  constructor
  · have h := (oss_tag_suppression [tsZlib] "zlib.jsonl.gz" (by decide)).1
      (by rw [he]; decide) (by rw [he]; decide)
    rw [he] at h
    exact h zlibSuppressedHead (by decide)
  · have h := (oss_tag_suppression zlib5 "zlib.jsonl.gz" (by decide)).2
      (by rw [he]; decide)
    rw [he] at h
    exact h

end SuppressionTheorems

section LayoutTheorems

open FlossQs

theorem rangesDisjoint_symm : Symmetric rangesDisjoint := by
  intro a b h x hb1 hb2 ha1 ha2
  exact h x ha1 ha2 hb1 hb2

theorem gtail_le {e hi : Nat} {l : List LayoutChild} (h : GTail e l hi) : e ≤ hi := by
  induction l generalizing e with
  | nil => exact Nat.le_of_eq h
  | cons c rest ih =>
    have h1 := h.1
    have h2 := ih h.2
    have : c.range.offset ≤ c.range.stop := Nat.le_add_right _ _
    omega

theorem cover_tail (l : List LayoutChild) (e hi : Nat) (h : GTail e l hi) :
    ∀ x : Nat, e ≤ x → x < hi →
      ∃ c ∈ l ++ gapsFrom 0 e l, c.range.offset ≤ x ∧ x < c.range.stop := by
  induction l generalizing e with
  | nil =>
    intro x hx1 hx2
    rw [h] at hx1
    omega
  | cons c rest ih =>
    intro x hx1 hx2
    by_cases hx3 : x < c.range.offset
    · have hne : e ≠ c.range.offset := by omega
      refine ⟨⟨⟨0 + e, c.range.offset - e⟩, "gap"⟩, ?_, ?_⟩
      · apply List.mem_append_right
        simp only [gapsFrom, hne, if_true, ne_eq, not_false_eq_true]
        exact List.mem_append_left _ (List.mem_singleton.mpr rfl)
      · simp only [Range.stop]
        omega
    · by_cases hx4 : x < c.range.stop
      · exact ⟨c, List.mem_append_left _ (List.mem_cons_self c rest), by omega, hx4⟩
      · obtain ⟨d, hd, hdx⟩ := ih c.range.stop h.2 x (by omega) hx2
        refine ⟨d, ?_, hdx⟩
        rcases List.mem_append.mp hd with hd | hd
        · exact List.mem_append_left _ (List.mem_cons_of_mem c hd)
        · apply List.mem_append_right
          simp only [gapsFrom]
          exact List.mem_append_right _ hd

theorem within_tail (l : List LayoutChild) (e hi : Nat) (h : GTail e l hi) :
    ∀ c ∈ l ++ gapsFrom 0 e l, e ≤ c.range.offset ∧ c.range.stop ≤ hi := by
  induction l generalizing e with
  | nil =>
    intro c hc
    simp [gapsFrom] at hc
  | cons c rest ih =>
    intro d hd
    have hstop : c.range.stop ≤ hi := gtail_le h.2
    have hoffs : c.range.offset ≤ c.range.stop := Nat.le_add_right _ _
    have he : e ≤ c.range.offset := h.1
    rcases List.mem_append.mp hd with hd | hd
    · rcases List.mem_cons.mp hd with rfl | hd
      · exact ⟨he, hstop⟩
      · have := ih c.range.stop h.2 d (List.mem_append_left _ hd)
        omega
    · simp only [gapsFrom] at hd
      rcases List.mem_append.mp hd with hd | hd
      · by_cases hne : e ≠ c.range.offset
        · rw [if_pos hne] at hd
          rcases List.mem_singleton.mp hd with rfl
          simp only [Range.stop]
          omega
        · rw [if_neg hne] at hd
          simp at hd
      · have := ih c.range.stop h.2 d (List.mem_append_right _ hd)
        omega

theorem pairwise_tail (l : List LayoutChild) (e hi : Nat) (h : GTail e l hi) :
    List.Pairwise rangesDisjoint (l ++ gapsFrom 0 e l) := by
  induction l generalizing e with
  | nil => simp [gapsFrom]
  | cons c rest ih =>
    have hGap : gapsFrom 0 e (c :: rest)
        = (if e ≠ c.range.offset
            then [(⟨⟨0 + e, c.range.offset - e⟩, "gap"⟩ : LayoutChild)] else [])
          ++ gapsFrom 0 c.range.stop rest := rfl
    set g : List LayoutChild :=
      (if e ≠ c.range.offset
          then [(⟨⟨0 + e, c.range.offset - e⟩, "gap"⟩ : LayoutChild)] else []) with hg
    set G : List LayoutChild := gapsFrom 0 c.range.stop rest with hG
    have hperm : List.Perm ((c :: rest) ++ gapsFrom 0 e (c :: rest)) (g ++ (c :: (rest ++ G))) := by
      rw [hGap, List.cons_append]
      refine List.Perm.trans (List.Perm.cons c ?_) List.perm_middle.symm
      rw [← List.append_assoc, ← List.append_assoc]
      exact List.perm_append_comm.append_right G
    rw [List.Perm.pairwise_iff (fun {x y} hxy => rangesDisjoint_symm hxy) hperm]
    apply List.pairwise_append.mpr
    refine ⟨?_, ?_, ?_⟩
    · rw [hg]
      by_cases hne : e ≠ c.range.offset
      · rw [if_pos hne]; exact List.pairwise_singleton _ _
      · rw [if_neg hne]; exact List.Pairwise.nil
    · apply List.pairwise_cons.mpr
      refine ⟨?_, ih c.range.stop h.2⟩
      intro d hd
      have hw := within_tail rest c.range.stop hi h.2 d hd
      intro x hx1 hx2 hx3 hx4
      have : c.range.offset ≤ c.range.stop := Nat.le_add_right _ _
      omega
    · intro gp hgp d hd
      rw [hg] at hgp
      by_cases hne : e ≠ c.range.offset
      · rw [if_pos hne] at hgp
        rcases List.mem_singleton.mp hgp with rfl
        rcases List.mem_cons.mp hd with rfl | hd
        · intro x hx1 hx2 hx3 hx4
          have hb1 : (0 : Nat) + e ≤ x := hx1
          have hb2 : x < 0 + e + (d.range.offset - e) := hx2
          simp only [Range.stop] at hx3 hx4
          omega
        · have hw := within_tail rest c.range.stop hi h.2 d hd
          intro x hx1 hx2 hx3 hx4
          have hb1 : (0 : Nat) + e ≤ x := hx1
          have hb2 : x < 0 + e + (c.range.offset - e) := hx2
          simp only [Range.stop] at hx3 hx4
          have : c.range.offset ≤ c.range.stop := Nat.le_add_right _ _
          omega
      · rw [if_neg hne] at hgp
        simp at hgp

theorem gtail_append_chain :
    ∀ (secs : List LayoutChild) (e hi : Nat) (ov : List LayoutChild),
      List.Chain' (fun a b => a.range.stop ≤ b.range.offset) secs →
      (secs = [] → GTail e ov hi) →
      (∀ c0, secs.head? = some c0 → e ≤ c0.range.offset) →
      (∀ cl, secs.getLast? = some cl → GTail cl.range.stop ov hi) →
      GTail e (secs ++ ov) hi := by
  intro secs
  induction secs with
  | nil =>
    intro e hi ov _ hemp _ _
    exact hemp rfl
  | cons c rest ih =>
    intro e hi ov hchain hemp hhead hlast
    refine ⟨hhead c rfl, ?_⟩
    apply ih c.range.stop hi ov hchain.tail
    · intro hr
      subst hr
      exact hlast c rfl
    · intro c0 hc0
      cases rest with
      | nil => simp at hc0
      | cons c1 r1 =>
        simp only [List.head?_cons, Option.some.injEq] at hc0
        subst hc0
        exact List.chain'_cons.mp hchain |>.1
    · intro cl hcl
      apply hlast
      cases rest with
      | nil => simp at hcl
      | cons c1 r1 =>
        rw [List.getLast?_cons_cons]
        exact hcl

theorem layoutChildrenFrom_spec (filelen : Nat) (firstSec : LayoutChild)
    (restSecs : List LayoutChild)
    (hchain : List.Chain' (fun a b => a.range.stop ≤ b.range.offset) (firstSec :: restSecs))
    (hbound : ∀ c ∈ firstSec :: restSecs, c.range.stop ≤ filelen) :
    (∀ x : Nat, x < filelen ↔
        ∃ c ∈ layoutChildrenFrom filelen 0 firstSec restSecs,
          c.range.offset ≤ x ∧ x < c.range.stop)
  ∧ List.Pairwise rangesDisjoint (layoutChildrenFrom filelen 0 firstSec restSecs)
  ∧ List.Pairwise (fun a b => a.range.offset ≤ b.range.offset)
      (layoutChildrenFrom filelen 0 firstSec restSecs) := by
  set hd : LayoutChild :=
    ⟨⟨0 + 0, firstSec.range.offset - (0 + 0)⟩, "PE header"⟩ with hhd
  set lastSec : LayoutChild := (firstSec :: restSecs).getLast (by simp) with hlast
  set ovList : List LayoutChild :=
    if lastSec.range.stop < 0 + filelen then
      [⟨⟨0 + lastSec.range.stop, filelen - lastSec.range.stop⟩, "PE overlay"⟩]
    else [] with hovl
  have hlastmem : lastSec ∈ firstSec :: restSecs := List.getLast_mem _
  have hWT : withOverlayOf filelen 0 firstSec restSecs
      = hd :: ((firstSec :: restSecs) ++ ovList) := by
    unfold withOverlayOf
    rw [hovl]
    by_cases h : lastSec.range.stop < 0 + filelen
    · rw [if_pos h, if_pos h]
      rfl
    · rw [if_neg h, if_neg h, List.append_nil]
  have hhs : hd.range.stop = firstSec.range.offset := by
    simp only [hhd, Range.stop]
    omega
  have hGT : GTail hd.range.stop ((firstSec :: restSecs) ++ ovList) filelen := by
    rw [hhs]
    apply gtail_append_chain _ _ _ _ hchain
    · intro habs
      simp at habs
    · intro c0 hc0
      simp only [List.head?_cons, Option.some.injEq] at hc0
      subst hc0
      exact Nat.le_refl _
    · intro cl hcl
      rw [List.getLast?_eq_getLast _ (by simp)] at hcl
      have hcl2 : cl = lastSec := by
        rw [hlast]
        exact (Option.some.injEq _ _).mp hcl |>.symm
      subst hcl2
      rw [hovl]
      by_cases h : lastSec.range.stop < 0 + filelen
      · rw [if_pos h]
        refine ⟨?_, ?_⟩
        · show lastSec.range.stop ≤ 0 + lastSec.range.stop
          omega
        · show (0 + lastSec.range.stop) + (filelen - lastSec.range.stop) = filelen
          have := hbound lastSec hlastmem
          omega
      · rw [if_neg h]
        show lastSec.range.stop = filelen
        have := hbound lastSec hlastmem
        omega
  have hLeq : withOverlayOf filelen 0 firstSec restSecs
        ++ gapsOf 0 (withOverlayOf filelen 0 firstSec restSecs)
      = hd :: (((firstSec :: restSecs) ++ ovList)
          ++ gapsFrom 0 hd.range.stop ((firstSec :: restSecs) ++ ovList)) := by
    rw [hWT]
    rfl
  have hfirstth : firstSec.range.stop ≤ filelen := hbound firstSec (List.mem_cons_self _ _)
  have hfirstoff : firstSec.range.offset ≤ firstSec.range.stop := Nat.le_add_right _ _
  -- coverage of the unsorted list
  have hcoverL : ∀ x : Nat, x < filelen ↔
      ∃ c ∈ withOverlayOf filelen 0 firstSec restSecs
          ++ gapsOf 0 (withOverlayOf filelen 0 firstSec restSecs),
        c.range.offset ≤ x ∧ x < c.range.stop := by
    intro x
    rw [hLeq]
    constructor
    · intro hx
      by_cases hxh : x < hd.range.stop
      · exact ⟨hd, List.mem_cons_self _ _, by simp [hhd], hxh⟩
      · obtain ⟨c, hc, hcx⟩ :=
          cover_tail _ _ _ hGT x (by omega) hx
        exact ⟨c, List.mem_cons_of_mem _ hc, hcx⟩
    · rintro ⟨c, hc, hc1, hc2⟩
      rcases List.mem_cons.mp hc with rfl | hc
      · rw [hhs] at hc2
        omega
      · have := within_tail _ _ _ hGT c hc
        omega
  -- pairwise disjointness of the unsorted list
  have hdisjL : List.Pairwise rangesDisjoint
      (withOverlayOf filelen 0 firstSec restSecs
        ++ gapsOf 0 (withOverlayOf filelen 0 firstSec restSecs)) := by
    rw [hLeq]
    apply List.pairwise_cons.mpr
    refine ⟨?_, pairwise_tail _ _ _ hGT⟩
    intro d hd2
    have hw := within_tail _ _ _ hGT d hd2
    intro x hx1 hx2 hx3 hx4
    rw [hhs] at hw
    simp only [hhd, Range.stop] at hx2
    omega
  -- transfer to the sorted result
  refine ⟨?_, ?_, ?_⟩
  · intro x
    rw [hcoverL x]
    unfold layoutChildrenFrom
    constructor
    · rintro ⟨c, hc, hcx⟩
      exact ⟨c, List.mem_mergeSort.mpr hc, hcx⟩
    · rintro ⟨c, hc, hcx⟩
      exact ⟨c, List.mem_mergeSort.mp hc, hcx⟩
  · unfold layoutChildrenFrom
    exact List.Perm.pairwise (List.mergeSort_perm _ _).symm hdisjL
      (fun {x y} hxy => rangesDisjoint_symm hxy)
  · unfold layoutChildrenFrom
    have hs := @List.sorted_mergeSort _
      (fun a b : LayoutChild => decide (a.range.offset ≤ b.range.offset))
      (fun a b c h1 h2 => by
        simp only [decide_eq_true_eq] at h1 h2 ⊢
        omega)
      (fun a b => by
        simp only [Bool.or_eq_true, decide_eq_true_eq]
        omega)
      (withOverlayOf filelen 0 firstSec restSecs
        ++ gapsOf 0 (withOverlayOf filelen 0 firstSec restSecs))
    exact hs.imp (fun {a b} h => by simpa using h)

theorem compute_pe_layout_coverage (filelen : Nat) (sections : List SectionInfo)
    (hne : sectionChildren 0 sections ≠ [])
    (hchain : List.Chain' (fun a b => a.range.stop ≤ b.range.offset) (sectionChildren 0 sections))
    (hbound : ∀ c ∈ sectionChildren 0 sections, c.range.stop ≤ filelen) :
    ∃ children,
      compute_pe_layout filelen sections 0 = some (⟨0, filelen⟩, children)
      ∧ (∀ x : Nat, ((⟨0, filelen⟩ : Range).containsPt x = true ↔
            ∃ c ∈ children, c.range.containsPt x = true))
      ∧ List.Pairwise rangesDisjoint children
      ∧ List.Pairwise (fun a b => a.range.offset ≤ b.range.offset) children := by
  obtain ⟨f, r, hsec⟩ : ∃ f r, sectionChildren 0 sections = f :: r := by
    cases h : sectionChildren 0 sections with
    | nil => exact absurd h hne
    | cons f r => exact ⟨f, r, rfl⟩
  rw [hsec] at hchain hbound
  obtain ⟨hcov, hdisj, hsort⟩ := layoutChildrenFrom_spec filelen f r hchain hbound
  refine ⟨layoutChildrenFrom filelen 0 f r, ?_, ?_, hdisj, hsort⟩
  · unfold compute_pe_layout compute_pe_layout_children
    rw [hsec]
    rfl
  · intro x
    have hx := hcov x
    constructor
    · intro hpt
      have hlt : x < filelen := by
        simp only [Range.containsPt, Range.stop, Bool.and_eq_true, decide_eq_true_eq] at hpt
        omega
      obtain ⟨c, hc, hc1, hc2⟩ := hx.mp hlt
      refine ⟨c, hc, ?_⟩
      simp only [Range.containsPt, Range.stop, Bool.and_eq_true, decide_eq_true_eq]
      exact ⟨hc1, hc2⟩
    · rintro ⟨c, hc, hpt⟩
      simp only [Range.containsPt, Range.stop, Bool.and_eq_true, decide_eq_true_eq] at hpt ⊢
      have hlt : x < filelen := by
        apply hx.mpr
        exact ⟨c, hc, hpt.1, hpt.2⟩
      omega

theorem compute_pe_layout_coverage_witness :
    (compute_pe_layout 0x800 [demoSection] 0).map Prod.fst = some ⟨0, 0x800⟩ := by
  obtain ⟨ch, heq, _⟩ := compute_pe_layout_coverage 0x800 [demoSection]
    (by simp [sectionChildren, demoSection])
    (by simp [sectionChildren, demoSection])
    (by simp [sectionChildren, demoSection, Range.stop])
  rw [heq]
  rfl

end LayoutTheorems
